import Mathlib

/-!
Shallow embedding of `runtime/core/decoder/context_graph.cc` (class
`wenet::ContextGraph`): the context-graph builder `BuildContextGraph` and the
per-step matcher `GetNextContextStates`, together with theorems settling the
claims about them.

Modelling conventions:
* Arc weights (`float` in the source, tropical `fst::StdArc::Weight`) are
  modelled as `Rat`; state ids (`int`) as `Nat`; symbol-table lookup results
  (`int`, with `-1` as the not-found sentinel) as `Int`.
* An `fst::StdVectorFst` is modelled as a record of a state counter (states are
  the naturals below it, `AddState` returns the counter and bumps it — matching
  OpenFst's consecutive integer state ids), a start state, the list of states
  whose final weight is `Weight::One()` (the builder marks exactly one such
  state; all other states have final weight `Zero`), and the list of arcs in
  insertion order, each paired with its source state.
* `std::map<int,float>` (the active-state maps) is modelled as an association
  list `List (Nat × Rat)`; `std::map` iterates in ascending key order, and all
  the properties proved below are independent of the iteration order.
* The final `fst::Determinize` pass is an external OpenFst library call (out of
  scope per the spec); it always produces a non-null `det_fst`, so `graph_` is
  null exactly when the builder returned early on an empty phrase list.  We
  model `graph_` as the automaton built by the arc-insertion loop; claims about
  the arcs the builder creates refer to this pre-determinization automaton, and
  claims about presence/absence of the automaton are unaffected.
-/

set_option maxHeartbeats 1000000

namespace Wenet

/-- One UTF-8 character of a phrase string, as produced by
`SplitUTF8StringToChars` (from `utils/string.h`, outside `src/`).
Modelled from the spec: a phrase is "tokenized into an ordered sequence of
elementary tokens (character-level in this design)".  `extraBytes` records the
UTF-8 encoded length minus one (every UTF-8 character occupies at least one
byte), `isSpace` whether the character is whitespace (used by `Trim`), and
`sym` is an abstract identity used by the vocabulary lookup. -/
structure UChar where
  extraBytes : Nat
  isSpace : Bool
  sym : Nat
deriving DecidableEq

/-- UTF-8 encoded byte width of a character: at least one byte. -/
def UChar.width (c : UChar) : Nat := c.extraBytes + 1

/-- A phrase string, viewed as its sequence of UTF-8 characters. -/
abbrev Phrase := List UChar

/-- `std::string::size()` of a phrase: its total UTF-8 byte length. -/
def byteSize (s : Phrase) : Nat := (s.map UChar.width).sum

/-- Modelled from the spec: `Trim` (from `utils/string.h`, outside `src/`)
removes surrounding whitespace from a phrase ("a string, trimmed of
surrounding whitespace").  `SplitUTF8StringToChars` is the identity in this
model because a phrase is already represented by its character sequence. -/
def Trim (s : Phrase) : Phrase :=
  ((s.dropWhile UChar.isSpace).reverse.dropWhile UChar.isSpace).reverse

/-- `fst::SymbolTable::Find`: vocabulary lookup returning the token id, or the
sentinel `-1` when the token is missing (spec: "lookup-miss sentinel = −1"). -/
abbrev SymbolTable := UChar → Int

/-- `ContextConfig` (declared in `decoder/context_graph.h`, outside `src/`).
Modelled from the spec: "max phrase count, max phrase length (in tokens),
per-token bonus weight" — the `.cc` file reads fields `max_contexts`,
`max_context_length` and `context_score` from it. -/
structure ContextConfig where
  max_contexts : Nat
  max_context_length : Nat
  context_score : Rat
deriving DecidableEq

/-- `fst::StdArc`: input label, output label (the graph is an acceptor, so the
two coincide on every arc the builder creates), weight, and target state. -/
structure StdArc where
  ilabel : Int
  olabel : Int
  weight : Rat
  nextstate : Nat
deriving DecidableEq

/-- `fst::StdVectorFst`, restricted to what `context_graph.cc` uses:
`numStates` is the number of allocated states (ids `0, …, numStates-1`),
`startState` the state set by `SetStart`, `finals` the states whose final
weight was set to `Weight::One()`, and `arcs` the arcs in insertion order,
paired with their source state. -/
structure StdVectorFst where
  numStates : Nat
  startState : Nat
  finals : List Nat
  arcs : List (Nat × StdArc)
deriving DecidableEq

/-- `AddState()`: returns the next fresh state id and the grown automaton. -/
def StdVectorFst.addState (f : StdVectorFst) : Nat × StdVectorFst :=
  (f.numStates, { f with numStates := f.numStates + 1 })

/-- `AddArc(src, arc)`: appends one arc leaving `src`. -/
def StdVectorFst.addArc (f : StdVectorFst) (src : Nat) (a : StdArc) : StdVectorFst :=
  { f with arcs := f.arcs ++ [(src, a)] }

/-- `graph_->Final(s) == fst::StdArc::Weight::One()`: whether `s` is a final
state (with acceptance weight `One`). -/
def StdVectorFst.isFinal (f : StdVectorFst) (s : Nat) : Bool := f.finals.contains s

/-- The arcs leaving state `s`, in insertion order — what
`fst::ArcIterator(*graph_, s)` iterates over. -/
def arcsOf (f : StdVectorFst) (s : Nat) : List StdArc :=
  (f.arcs.filter (fun p => p.1 == s)).map Prod.snd

/-- The inner per-phrase loop of `BuildContextGraph` (context_graph.cc lines
44–64), recursing over the remaining characters.  `i` is the loop index,
`prev` the `prev_state` variable.  A failed vocabulary lookup (`-1`) breaks out
of the loop, returning the automaton as built so far; otherwise `next_state`
is a fresh state — or `final_state` for the last character — an escape arc
labeled 0 with weight `-score*i` is added from `prev` to the start state when
`i > 0`, and the match arc `(word_id, word_id, score, next_state)` is added
from `prev`. -/
def addPhraseArcs (symtab : SymbolTable) (score : Rat) (startSt finalSt : Nat) :
    List UChar → Nat → Nat → StdVectorFst → StdVectorFst
  | [], _, _, f => f
  | ch :: rest, i, prev, f =>
    if symtab ch = -1 then f
    else
      let alloc := if rest.isEmpty then (finalSt, f) else f.addState
      let f2 := if 0 < i then
          alloc.2.addArc prev ⟨0, 0, -(score * (i : Rat)), startSt⟩
        else alloc.2
      let f3 := f2.addArc prev ⟨symtab ch, symtab ch, score, alloc.1⟩
      addPhraseArcs symtab score startSt finalSt rest (i + 1) alloc.1 f3

/-- The outer loop of `BuildContextGraph` (lines 33–64): skips a phrase whose
byte size exceeds `max_context_length` without consuming the context count;
otherwise increments `count` and breaks out of the whole loop when the new
count exceeds `max_contexts`; otherwise compiles the trimmed phrase. -/
def buildLoop (symtab : SymbolTable) (cfg : ContextConfig) (startSt finalSt : Nat) :
    List Phrase → Nat → StdVectorFst → StdVectorFst
  | [], _, f => f
  | context :: rest, count, f =>
    if cfg.max_context_length < byteSize context then
      buildLoop symtab cfg startSt finalSt rest count f
    else if cfg.max_contexts < count + 1 then f
    else
      buildLoop symtab cfg startSt finalSt rest (count + 1)
        (addPhraseArcs symtab cfg.context_score startSt finalSt (Trim context) 0 startSt f)

/-- The automaton `BuildContextGraph` starts from: state 0 is the start state,
state 1 the final state (final weight `One`), no arcs yet. -/
def initialFst : StdVectorFst :=
  { numStates := 2, startState := 0, finals := [1], arcs := [] }

/-- `ContextGraph::BuildContextGraph`: `none` models a null `graph_`.  An empty
`query_contexts` resets `graph_`; otherwise the arc-insertion loops run and
`graph_` is set (determinization, an external library call, always yields a
non-null automaton and is not modelled — see the file header). -/
def BuildContextGraph (cfg : ContextConfig) (symtab : SymbolTable)
    (query_contexts : List Phrase) : Option StdVectorFst :=
  if query_contexts.isEmpty then none
  else some (buildLoop symtab cfg 0 1 query_contexts 0 initialFst)

/-- The mutable loop state of `GetNextContextStates`: the two running scores
(source names `partial_match_score` and `full_match_score`) and the
`next_active_states` output map. -/
structure MatchState where
  partMatchScore : Rat
  fullMatchScore : Rat
  nextActive : List (Nat × Rat)
deriving DecidableEq

/-- `std::map::find` on the association-list model of the map. -/
def mapFind (m : List (Nat × Rat)) (k : Nat) : Option Rat :=
  (m.find? (fun p => p.1 == k)).map Prod.snd

/-- The update `if (iter == end || iter->second < context_score)
next_active_states[arc.nextstate] = context_score;` (lines 96–101): a missing
key is inserted; a present key is overwritten only by a strictly greater
value. -/
def mapInsertMax (m : List (Nat × Rat)) (k : Nat) (v : Rat) : List (Nat × Rat) :=
  match mapFind m k with
  | none => m ++ [(k, v)]
  | some old =>
    if old < v then m.map (fun p => if p.1 == k then (k, v) else p) else m

/-- The body of the arc iteration of `GetNextContextStates` (lines 85–103) for
one arc: if the arc's input label equals the incoming word id or is the escape
label 0, the candidate `context_score = score + arc.weight` raises
`partial_match_score`; it then raises `full_match_score` if the arc's target is
final, and otherwise updates the target's entry in `next_active_states`. -/
def processArc (g : StdVectorFst) (wordId : Int) (score : Rat)
    (st : MatchState) (arc : StdArc) : MatchState :=
  if arc.ilabel = wordId ∨ arc.ilabel = 0 then
    let contextScore := score + arc.weight
    let st1 := { st with partMatchScore := max st.partMatchScore contextScore }
    if g.isFinal arc.nextstate then
      { st1 with fullMatchScore := max st1.fullMatchScore contextScore }
    else
      { st1 with nextActive := mapInsertMax st1.nextActive arc.nextstate contextScore }
  else st

/-- Processing of one `(state, score)` entry of `active_states`: iterate over
the arcs leaving `state`. -/
def processState (g : StdVectorFst) (wordId : Int) (st : MatchState)
    (p : Nat × Rat) : MatchState :=
  (arcsOf g p.1).foldl (processArc g wordId p.2) st

/-- `ContextGraph::GetNextContextStates` (lines 72–107): the fast path returns
`(0, 0)` when the graph is absent or `active_states` is empty; otherwise both
scores start at 0 and every active state's arcs are examined.  Returns the
score pair together with the produced `next_active_states` map. -/
def GetNextContextStates (g : Option StdVectorFst) (activeStates : List (Nat × Rat))
    (wordId : Int) : (Rat × Rat) × List (Nat × Rat) :=
  match g with
  | none => ((0, 0), [])
  | some graph =>
    if activeStates.isEmpty then ((0, 0), [])
    else
      let st := activeStates.foldl (processState graph wordId) ⟨0, 0, []⟩
      ((st.partMatchScore, st.fullMatchScore), st.nextActive)

/-! ### The arc chain of one phrase

`matchChain score startSt finalSt ids i prev base` is the list of arcs the
per-phrase loop appends when every remaining character resolves: for each
position `i` along the phrase, the state `prev` reached after `i` tokens gets
an escape arc `(0, 0, -score*i, startSt)` when `i > 0` and the match arc
`(id, id, score, next)`, where `next` is the fresh state `base` — or
`finalSt` on the last token.  `truncChain` is the analogue for the resolved
part of a phrase the loop later abandons at an unknown token: there every
match arc targets a fresh state (the abandoned position is never the last). -/

def matchChain (score : Rat) (startSt finalSt : Nat) :
    List Int → Nat → Nat → Nat → List (Nat × StdArc)
  | [], _, _, _ => []
  | [w], i, prev, _ =>
    (if 0 < i then [(prev, ⟨0, 0, -(score * (i : Rat)), startSt⟩)] else []) ++
      [(prev, ⟨w, w, score, finalSt⟩)]
  | w :: w2 :: rest, i, prev, base =>
    (if 0 < i then [(prev, ⟨0, 0, -(score * (i : Rat)), startSt⟩)] else []) ++
      (prev, ⟨w, w, score, base⟩) ::
        matchChain score startSt finalSt (w2 :: rest) (i + 1) base (base + 1)

def truncChain (score : Rat) (startSt : Nat) :
    List Int → Nat → Nat → Nat → List (Nat × StdArc)
  | [], _, _, _ => []
  | w :: rest, i, prev, base =>
    (if 0 < i then [(prev, ⟨0, 0, -(score * (i : Rat)), startSt⟩)] else []) ++
      (prev, ⟨w, w, score, base⟩) ::
        truncChain score startSt rest (i + 1) base (base + 1)

theorem addPhraseArcs_nil (symtab : SymbolTable) (score : Rat) (startSt finalSt : Nat)
    (i prev : Nat) (f : StdVectorFst) :
    addPhraseArcs symtab score startSt finalSt [] i prev f = f := rfl

theorem addPhraseArcs_cons (symtab : SymbolTable) (score : Rat) (startSt finalSt : Nat)
    (ch : UChar) (rest : List UChar) (i prev : Nat) (f : StdVectorFst) :
    addPhraseArcs symtab score startSt finalSt (ch :: rest) i prev f =
      if symtab ch = -1 then f
      else
        let alloc := if rest.isEmpty then (finalSt, f) else f.addState
        let f2 := if 0 < i then
            alloc.2.addArc prev ⟨0, 0, -(score * (i : Rat)), startSt⟩
          else alloc.2
        let f3 := f2.addArc prev ⟨symtab ch, symtab ch, score, alloc.1⟩
        addPhraseArcs symtab score startSt finalSt rest (i + 1) alloc.1 f3 := rfl

/-- Characterization of the per-phrase loop when every character of the phrase
resolves in the vocabulary: it allocates `L - 1` fresh intermediate states and
appends exactly the chain `matchChain` of match and escape arcs. -/
theorem addPhraseArcs_resolved (symtab : SymbolTable) (score : Rat)
    (startSt finalSt : Nat) :
    ∀ (chars : List UChar) (i prev : Nat) (f : StdVectorFst),
      (∀ c ∈ chars, symtab c ≠ -1) →
      addPhraseArcs symtab score startSt finalSt chars i prev f =
        { f with numStates := f.numStates + (chars.length - 1),
                 arcs := f.arcs ++
                   matchChain score startSt finalSt (chars.map symtab) i prev f.numStates } := by
  intro chars
  induction chars with
  | nil => intro i prev f _; simp [addPhraseArcs_nil, matchChain]
  | cons ch rest ih =>
    intro i prev f h
    have hch : ¬(symtab ch = -1) := h ch (List.mem_cons_self _ _)
    have hrest : ∀ c ∈ rest, symtab c ≠ -1 := fun c hc => h c (List.mem_cons_of_mem _ hc)
    cases rest with
    | nil =>
      cases f with
      | mk ns ss fs as =>
        by_cases hi : 0 < i <;>
          simp [addPhraseArcs_cons, addPhraseArcs_nil, hch, matchChain,
            StdVectorFst.addArc, StdVectorFst.addState, hi]
    | cons c2 rest' =>
      rw [addPhraseArcs_cons, if_neg hch]
      simp only [List.isEmpty_cons, if_neg Bool.false_ne_true, StdVectorFst.addState]
      rw [ih _ _ _ hrest]
      cases f with
      | mk ns ss fs as =>
        by_cases hi : 0 < i <;>
          · simp [StdVectorFst.addArc, matchChain, hi, List.length_cons]
            omega

/-- Characterization of the per-phrase loop when the vocabulary lookup fails
at the character `bad`, after the resolved `pre` (the loop `break`s there): it
allocates one fresh state per resolved character and appends exactly the
truncated chain for `pre`; nothing of `bad :: post` is compiled, and no escape
arc is added in the aborting iteration. -/
theorem addPhraseArcs_trunc (symtab : SymbolTable) (score : Rat)
    (startSt finalSt : Nat) :
    ∀ (pre : List UChar) (bad : UChar) (post : List UChar) (i prev : Nat) (f : StdVectorFst),
      (∀ c ∈ pre, symtab c ≠ -1) → symtab bad = -1 →
      addPhraseArcs symtab score startSt finalSt (pre ++ bad :: post) i prev f =
        { f with numStates := f.numStates + pre.length,
                 arcs := f.arcs ++
                   truncChain score startSt (pre.map symtab) i prev f.numStates } := by
  intro pre
  induction pre with
  | nil =>
    intro bad post i prev f _ hbad
    simp [addPhraseArcs_cons, hbad, truncChain]
  | cons ch pre' ih =>
    intro bad post i prev f h hbad
    have hch : ¬(symtab ch = -1) := h ch (List.mem_cons_self _ _)
    have hpre' : ∀ c ∈ pre', symtab c ≠ -1 := fun c hc => h c (List.mem_cons_of_mem _ hc)
    have hne : (pre' ++ bad :: post).isEmpty = false := by cases pre' <;> simp
    rw [List.cons_append, addPhraseArcs_cons, if_neg hch]
    simp only [hne, if_neg Bool.false_ne_true, StdVectorFst.addState]
    rw [ih _ _ _ _ _ hpre' hbad]
    cases f with
    | mk ns ss fs as =>
      by_cases hi : 0 < i <;>
        · simp [StdVectorFst.addArc, truncChain, hi]
          omega

/-! ### Example fixtures -/

/-- The character `c` of the spec's `"cat"` example (one byte, not whitespace,
vocabulary id 3 under `symtabEx`). -/
def cChar : UChar := ⟨0, false, 3⟩

/-- The character `a` of the `"cat"` example (vocabulary id 1). -/
def aChar : UChar := ⟨0, false, 1⟩

/-- The character `t` of the `"cat"` example (vocabulary id 20). -/
def tChar : UChar := ⟨0, false, 20⟩

/-- A character missing from the vocabulary (`Find` returns `-1`). -/
def badChar : UChar := ⟨0, false, 99⟩

/-- The phrase `"cat"`. -/
def catChars : Phrase := [cChar, aChar, tChar]

/-- A concrete vocabulary: characters with `sym ≤ 30` resolve to their `sym`,
anything else is unknown (sentinel `-1`). -/
def symtabEx : SymbolTable := fun c => if c.sym ≤ 30 then (c.sym : Int) else -1

/-- The automaton the builder creates for the single phrase `"cat"` with
`context_score = 1`: the chain `0 → 2 → 3 → 1` on labels 3, 1, 20 with match
weights 1, 1, 1 and escape arcs `2 → 0` (weight −1) and `3 → 0` (weight −2). -/
def catFst : StdVectorFst :=
  { numStates := 4, startState := 0, finals := [1],
    arcs := [(0, ⟨3, 3, 1, 2⟩), (2, ⟨0, 0, -1, 0⟩), (2, ⟨1, 1, 1, 3⟩),
             (3, ⟨0, 0, -2, 0⟩), (3, ⟨20, 20, 1, 1⟩)] }

/-! ### Claims about the builder -/

/-- Claim C1: for every phrase of token length L that the builder compiles in
full (all L tokens resolve in the vocabulary; the phrase reached the per-phrase
loop), the loop allocates exactly L−1 fresh intermediate states and appends the
chain of L match arcs from the start state through those states into the shared
final state, each match arc labeled with the token's id and weighted
`context_score`, and each intermediate state at 1-indexed position i gets
exactly one escape arc labeled 0 back to the start state with weight
`-context_score * i` — the appended arcs are exactly `matchChain`, whose
position-i entry is that escape arc (when i > 0) followed by the match arc. -/
theorem claim_c1 (symtab : SymbolTable) (score : Rat) (startSt finalSt : Nat)
    (chars : List UChar) (f : StdVectorFst)
    (hres : ∀ c ∈ chars, symtab c ≠ -1) :
    (addPhraseArcs symtab score startSt finalSt chars 0 startSt f).numStates
        = f.numStates + (chars.length - 1) ∧
    (addPhraseArcs symtab score startSt finalSt chars 0 startSt f).arcs
        = f.arcs ++ matchChain score startSt finalSt (chars.map symtab) 0 startSt f.numStates := by
  rw [addPhraseArcs_resolved symtab score startSt finalSt chars 0 startSt f hres]
  exact ⟨rfl, rfl⟩

/-- Witness for C1 at the spec's `"cat"` example: ids 3, 1, 20 all resolve,
two fresh states are allocated, and the arcs are exactly the chain with match
weights 1, 1, 1 and escape weights −1 and −2. -/
theorem claim_c1_witness :
    (∀ c ∈ catChars, symtabEx c ≠ -1) ∧
    ((addPhraseArcs symtabEx 1 0 1 catChars 0 0 initialFst).numStates
        = initialFst.numStates + (catChars.length - 1) ∧
      (addPhraseArcs symtabEx 1 0 1 catChars 0 0 initialFst).arcs
        = initialFst.arcs ++
            matchChain 1 0 1 (catChars.map symtabEx) 0 0 initialFst.numStates) ∧
    matchChain 1 0 1 (catChars.map symtabEx) 0 0 initialFst.numStates =
      [(0, ⟨3, 3, 1, 2⟩), (2, ⟨0, 0, -1, 0⟩), (2, ⟨1, 1, 1, 3⟩),
       (3, ⟨0, 0, -2, 0⟩), (3, ⟨20, 20, 1, 1⟩)] :=
  ⟨by decide, claim_c1 symtabEx 1 0 1 catChars initialFst (by decide), by
    norm_num [matchChain, catChars, cChar, aChar, tChar, symtabEx, initialFst]⟩

theorem buildLoop_nil (symtab : SymbolTable) (cfg : ContextConfig)
    (startSt finalSt count : Nat) (f : StdVectorFst) :
    buildLoop symtab cfg startSt finalSt [] count f = f := rfl

theorem buildLoop_cons (symtab : SymbolTable) (cfg : ContextConfig)
    (startSt finalSt : Nat) (context : Phrase) (rest : List Phrase)
    (count : Nat) (f : StdVectorFst) :
    buildLoop symtab cfg startSt finalSt (context :: rest) count f =
      if cfg.max_context_length < byteSize context then
        buildLoop symtab cfg startSt finalSt rest count f
      else if cfg.max_contexts < count + 1 then f
      else
        buildLoop symtab cfg startSt finalSt rest (count + 1)
          (addPhraseArcs symtab cfg.context_score startSt finalSt (Trim context) 0 startSt f) := rfl

/-- Claim C7: a phrase with an unresolvable token is truncated there — the
arcs already created for the resolved part are kept as-is (the original arc
list is an unchanged initial segment of the result, with only the truncated
chain appended and nothing of the bad token or its successors compiled), and
the outer loop then continues with the remaining phrases.  The build is a
total function: no error is returned to the caller. -/
theorem claim_c7 (symtab : SymbolTable) (cfg : ContextConfig) (startSt finalSt : Nat) :
    (∀ (pre : List UChar) (bad : UChar) (post : List UChar) (f : StdVectorFst),
      (∀ c ∈ pre, symtab c ≠ -1) → symtab bad = -1 →
      addPhraseArcs symtab cfg.context_score startSt finalSt (pre ++ bad :: post) 0 startSt f =
        { f with numStates := f.numStates + pre.length,
                 arcs := f.arcs ++
                   truncChain cfg.context_score startSt (pre.map symtab) 0 startSt f.numStates }) ∧
    (∀ (ctx : Phrase) (rest : List Phrase) (count : Nat) (f : StdVectorFst),
      byteSize ctx ≤ cfg.max_context_length → count + 1 ≤ cfg.max_contexts →
      buildLoop symtab cfg startSt finalSt (ctx :: rest) count f =
        buildLoop symtab cfg startSt finalSt rest (count + 1)
          (addPhraseArcs symtab cfg.context_score startSt finalSt (Trim ctx) 0 startSt f)) := by
  constructor
  · intro pre bad post f hres hbad
    exact addPhraseArcs_trunc symtab cfg.context_score startSt finalSt pre bad post 0 startSt f hres hbad
  · intro ctx rest count f h1 h2
    rw [buildLoop_cons, if_neg (Nat.not_lt.mpr h1), if_neg (Nat.not_lt.mpr h2)]

/-- A configuration for the witnesses: up to 10 phrases of byte length up to
100, bonus 1 per token. -/
def cfgEx : ContextConfig := ⟨10, 100, 1⟩

/-- Witness for C7: the phrase `c·bad` is truncated after `c`, keeping the arc
for `c`, and the outer loop goes on to the next phrase. -/
theorem claim_c7_witness :
    ((∀ c ∈ [cChar], symtabEx c ≠ -1) ∧ symtabEx badChar = -1 ∧
      addPhraseArcs symtabEx cfgEx.context_score 0 1 ([cChar] ++ badChar :: []) 0 0 initialFst =
        { initialFst with
            numStates := initialFst.numStates + [cChar].length,
            arcs := initialFst.arcs ++
              truncChain cfgEx.context_score 0 ([cChar].map symtabEx) 0 0 initialFst.numStates }) ∧
    (byteSize catChars ≤ cfgEx.max_context_length ∧ 0 + 1 ≤ cfgEx.max_contexts ∧
      buildLoop symtabEx cfgEx 0 1 (catChars :: [[aChar]]) 0 initialFst =
        buildLoop symtabEx cfgEx 0 1 [[aChar]] (0 + 1)
          (addPhraseArcs symtabEx cfgEx.context_score 0 1 (Trim catChars) 0 0 initialFst)) :=
  ⟨⟨by decide, by decide,
     (claim_c7 symtabEx cfgEx 0 1).1 [cChar] badChar [] initialFst (by decide) (by decide)⟩,
   ⟨by decide, by decide,
     (claim_c7 symtabEx cfgEx 0 1).2 catChars [[aChar]] 0 initialFst (by decide) (by decide)⟩⟩

theorem length_le_byteSize (s : Phrase) : s.length ≤ byteSize s := by
  induction s with
  | nil => simp [byteSize]
  | cons c s ih =>
    simp only [byteSize, List.map_cons, List.sum_cons, List.length_cons, UChar.width] at *
    omega

theorem trim_length_le (s : Phrase) : (Trim s).length ≤ s.length := by
  unfold Trim
  calc ((s.dropWhile UChar.isSpace).reverse.dropWhile UChar.isSpace).reverse.length
      = ((s.dropWhile UChar.isSpace).reverse.dropWhile UChar.isSpace).length := by
        rw [List.length_reverse]
    _ ≤ (s.dropWhile UChar.isSpace).reverse.length := (List.dropWhile_sublist _).length_le
    _ = (s.dropWhile UChar.isSpace).length := by rw [List.length_reverse]
    _ ≤ s.length := (List.dropWhile_sublist _).length_le

/-- Claim C6: a phrase whose token length (number of UTF-8 characters after
trimming) exceeds `max_context_length` is skipped in full — processing it is
identical to not processing it at all: no states or arcs are created and the
context count is not consumed.  (The source tests the byte length
`context.size()`, which is never smaller than the token length, so every
over-long phrase hits the skip branch.) -/
theorem claim_c6 (symtab : SymbolTable) (cfg : ContextConfig) (startSt finalSt : Nat)
    (ctx : Phrase) (rest : List Phrase) (count : Nat) (f : StdVectorFst)
    (h : cfg.max_context_length < (Trim ctx).length) :
    buildLoop symtab cfg startSt finalSt (ctx :: rest) count f =
      buildLoop symtab cfg startSt finalSt rest count f := by
  have h1 : cfg.max_context_length < byteSize ctx :=
    lt_of_lt_of_le h ((trim_length_le ctx).trans (length_le_byteSize ctx))
  rw [buildLoop_cons, if_pos h1]

/-- A configuration whose phrase length cap is one token. -/
def shortCfg : ContextConfig := ⟨10, 1, 1⟩

/-- Witness for C6: with a one-token cap, the three-token phrase `"cat"` is
skipped entirely. -/
theorem claim_c6_witness :
    shortCfg.max_context_length < (Trim catChars).length ∧
    buildLoop symtabEx shortCfg 0 1 (catChars :: [[aChar]]) 0 initialFst =
      buildLoop symtabEx shortCfg 0 1 [[aChar]] 0 initialFst :=
  ⟨by decide, claim_c6 symtabEx shortCfg 0 1 catChars [[aChar]] 0 initialFst (by decide)⟩

/-- The phrases the outer loop actually compiles, given the running context
count: a phrase over the byte-length cap is passed over without touching the
count; otherwise the count is consumed, and if it would exceed `max_contexts`
the loop breaks, ignoring this and every later phrase. -/
def compiledContexts (cfg : ContextConfig) : List Phrase → Nat → List Phrase
  | [], _ => []
  | context :: rest, count =>
    if cfg.max_context_length < byteSize context then compiledContexts cfg rest count
    else if cfg.max_contexts < count + 1 then []
    else context :: compiledContexts cfg rest (count + 1)

theorem buildLoop_eq_foldl (symtab : SymbolTable) (cfg : ContextConfig)
    (startSt finalSt : Nat) :
    ∀ (ctxs : List Phrase) (count : Nat) (f : StdVectorFst),
      buildLoop symtab cfg startSt finalSt ctxs count f =
        (compiledContexts cfg ctxs count).foldl
          (fun g ctx =>
            addPhraseArcs symtab cfg.context_score startSt finalSt (Trim ctx) 0 startSt g) f := by
  intro ctxs
  induction ctxs with
  | nil => intro count f; rfl
  | cons ctx rest ih =>
    intro count f
    rw [buildLoop_cons]
    by_cases h1 : cfg.max_context_length < byteSize ctx
    · rw [if_pos h1, ih]; simp [compiledContexts, h1]
    · rw [if_neg h1]
      by_cases h2 : cfg.max_contexts < count + 1
      · rw [if_pos h2]; simp [compiledContexts, h1, h2]
      · rw [if_neg h2, ih]; simp [compiledContexts, h1, h2]

theorem compiledContexts_sublist (cfg : ContextConfig) :
    ∀ (ctxs : List Phrase) (count : Nat), (compiledContexts cfg ctxs count).Sublist ctxs := by
  intro ctxs
  induction ctxs with
  | nil => intro count; simp [compiledContexts]
  | cons ctx rest ih =>
    intro count
    simp only [compiledContexts]
    split
    · exact (ih count).cons _
    · split
      · exact List.nil_sublist _
      · exact (ih (count + 1)).cons₂ _

theorem compiledContexts_length (cfg : ContextConfig) :
    ∀ (ctxs : List Phrase) (count : Nat),
      (compiledContexts cfg ctxs count).length ≤ cfg.max_contexts - count := by
  intro ctxs
  induction ctxs with
  | nil => intro count; simp [compiledContexts]
  | cons ctx rest ih =>
    intro count
    simp only [compiledContexts]
    split
    · exact ih count
    · split
      · simp
      · rename_i h2
        have := ih (count + 1)
        simp only [List.length_cons]
        omega

theorem compiledContexts_byteSize (cfg : ContextConfig) :
    ∀ (ctxs : List Phrase) (count : Nat) (ctx : Phrase),
      ctx ∈ compiledContexts cfg ctxs count → byteSize ctx ≤ cfg.max_context_length := by
  intro ctxs
  induction ctxs with
  | nil => intro count ctx h; simp [compiledContexts] at h
  | cons c rest ih =>
    intro count ctx h
    simp only [compiledContexts] at h
    split at h
    · exact ih count ctx h
    · split at h
      · simp at h
      · rename_i h1 _
        rcases List.mem_cons.mp h with rfl | h
        · exact Nat.not_lt.mp h1
        · exact ih (count + 1) ctx h

/-- Claim C8: `Build` compiles exactly the phrases `compiledContexts` selects,
folding the per-phrase compilation over them in input order; that selection is
a sublist of the input (order preserved), it never exceeds `max_contexts`
phrases, a phrase skipped for length never appears in it (and, by its
definition, does not consume the count), a selected phrase consumes the count
regardless of any later truncation inside the per-phrase loop, and once the
count would exceed the budget every later phrase is ignored. -/
theorem claim_c8 (symtab : SymbolTable) (cfg : ContextConfig) (ctxs : List Phrase) :
    BuildContextGraph cfg symtab ctxs =
      (if ctxs.isEmpty then none
       else some ((compiledContexts cfg ctxs 0).foldl
          (fun g ctx => addPhraseArcs symtab cfg.context_score 0 1 (Trim ctx) 0 0 g)
          initialFst)) ∧
    (compiledContexts cfg ctxs 0).Sublist ctxs ∧
    (compiledContexts cfg ctxs 0).length ≤ cfg.max_contexts ∧
    ∀ ctx ∈ compiledContexts cfg ctxs 0, byteSize ctx ≤ cfg.max_context_length := by
  refine ⟨?_, compiledContexts_sublist cfg ctxs 0,
    by simpa using compiledContexts_length cfg ctxs 0,
    fun ctx h => compiledContexts_byteSize cfg ctxs 0 ctx h⟩
  unfold BuildContextGraph
  split
  · rfl
  · rw [buildLoop_eq_foldl]

/-- A configuration under which every non-empty phrase is over-long
(`max_context_length = 0`). -/
def skipAllCfg : ContextConfig := ⟨10, 0, 1⟩

/-- Counterexample to Claim C4 as stated: with `max_context_length = 0` the
non-empty input `["cat"]` is filtered down to nothing (no usable phrase is
compiled), yet `BuildContextGraph` still returns an automaton — `graph_` is
only reset on an *empty input list*, and the determinized (phrase-less)
automaton is installed otherwise. -/
theorem claim_c4_cex :
    compiledContexts skipAllCfg [catChars] 0 = [] ∧
    BuildContextGraph skipAllCfg symtabEx [catChars] ≠ none := by
  constructor
  · decide
  · simp [BuildContextGraph]

/-- Claim C4 (amended): the automaton is absent if and only if the *input*
phrase list is empty; a non-empty input yields an automaton even when every
phrase is skipped by filtering. -/
theorem claim_c4_amended (cfg : ContextConfig) (symtab : SymbolTable)
    (ctxs : List Phrase) :
    BuildContextGraph cfg symtab ctxs = none ↔ ctxs = [] := by
  cases ctxs <;> simp [BuildContextGraph]

/-! ### Sources of the arcs created by the build

Every arc a phrase contributes leaves either the start state or a state that
was freshly allocated for that phrase; in a truncated phrase the last
allocated state — the one reached by the kept prefix — is never a source. -/

theorem matchChain_src (score : Rat) (startSt finalSt : Nat) :
    ∀ (ids : List Int) (i prev base : Nat) (p : Nat × StdArc),
      p ∈ matchChain score startSt finalSt ids i prev base →
      p.1 = prev ∨ base ≤ p.1 := by
  intro ids
  induction ids with
  | nil => intro i prev base p hp; simp [matchChain] at hp
  | cons w rest ih =>
    intro i prev base p hp
    cases rest with
    | nil =>
      simp only [matchChain, List.mem_append, List.mem_cons, List.not_mem_nil,
        or_false] at hp
      rcases hp with hp | hp
      · split at hp <;> simp at hp
        left; rw [hp]
      · left; rw [hp]
    | cons w2 rest' =>
      simp only [matchChain, List.mem_append, List.mem_cons] at hp
      rcases hp with hp | hp | hp
      · split at hp <;> simp at hp
        left; rw [hp]
      · left; rw [hp]
      · rcases ih _ _ _ p hp with h | h
        · right; omega
        · right; omega

theorem truncChain_src (score : Rat) (startSt : Nat) :
    ∀ (ids : List Int) (i prev base : Nat) (p : Nat × StdArc),
      p ∈ truncChain score startSt ids i prev base →
      p.1 = prev ∨ (base ≤ p.1 ∧ p.1 + 1 < base + ids.length) := by
  intro ids
  induction ids with
  | nil => intro i prev base p hp; simp [truncChain] at hp
  | cons w rest ih =>
    intro i prev base p hp
    simp only [truncChain, List.mem_append, List.mem_cons] at hp
    rcases hp with hp | hp | hp
    · split at hp <;> simp at hp
      left; rw [hp]
    · left; rw [hp]
    · have hrest : rest ≠ [] := by rintro rfl; simp [truncChain] at hp
      have hlen : 0 < rest.length := List.length_pos.mpr hrest
      rcases ih _ _ _ _ hp with h | ⟨h1, h2⟩
      · right; simp only [List.length_cons]; constructor <;> omega
      · right; simp only [List.length_cons]; constructor <;> omega

/-- Every phrase either resolves in full or has a first unresolvable
character. -/
theorem resolve_decomp (symtab : SymbolTable) :
    ∀ chars : List UChar,
      (∀ c ∈ chars, symtab c ≠ -1) ∨
      ∃ pre bad post, chars = pre ++ bad :: post ∧
        (∀ c ∈ pre, symtab c ≠ -1) ∧ symtab bad = -1 := by
  intro chars
  induction chars with
  | nil => exact Or.inl (by simp)
  | cons ch rest ih =>
    by_cases hch : symtab ch = -1
    · exact Or.inr ⟨[], ch, rest, by simp, by simp, hch⟩
    · rcases ih with h | ⟨pre, bad, post, heq, hpre, hbad⟩
      · refine Or.inl ?_
        intro c hc
        rcases List.mem_cons.mp hc with rfl | hc
        · exact hch
        · exact h c hc
      · refine Or.inr ⟨ch :: pre, bad, post, by simp [heq], ?_, hbad⟩
        intro c hc
        rcases List.mem_cons.mp hc with rfl | hc
        · exact hch
        · exact hpre c hc

/-- Whatever happens inside the per-phrase loop (full compile or truncation),
the result extends the automaton by some fresh states and appends arcs whose
sources are the start state or freshly allocated states. -/
theorem addPhraseArcs_shape (symtab : SymbolTable) (score : Rat) (startSt finalSt : Nat)
    (chars : List UChar) (f : StdVectorFst) :
    ∃ (n : Nat) (newArcs : List (Nat × StdArc)),
      addPhraseArcs symtab score startSt finalSt chars 0 startSt f =
        { f with numStates := f.numStates + n, arcs := f.arcs ++ newArcs } ∧
      ∀ p ∈ newArcs, p.1 = startSt ∨ f.numStates ≤ p.1 := by
  rcases resolve_decomp symtab chars with h | ⟨pre, bad, post, heq, hpre, hbad⟩
  · exact ⟨chars.length - 1, _,
      addPhraseArcs_resolved symtab score startSt finalSt chars 0 startSt f h,
      fun p hp => matchChain_src score startSt finalSt _ 0 startSt f.numStates p hp⟩
  · subst heq
    exact ⟨pre.length, _,
      addPhraseArcs_trunc symtab score startSt finalSt pre bad post 0 startSt f hpre hbad,
      fun p hp =>
        (truncChain_src score startSt _ 0 startSt f.numStates p hp).imp id And.left⟩

/-- Every arc present after running the outer loop either was already there,
or leaves the start state, or leaves a state allocated during the loop. -/
theorem buildLoop_src (symtab : SymbolTable) (cfg : ContextConfig) (startSt finalSt : Nat) :
    ∀ (ctxs : List Phrase) (count : Nat) (f : StdVectorFst) (p : Nat × StdArc),
      p ∈ (buildLoop symtab cfg startSt finalSt ctxs count f).arcs →
      p ∈ f.arcs ∨ p.1 = startSt ∨ f.numStates ≤ p.1 := by
  intro ctxs
  induction ctxs with
  | nil => intro count f p hp; exact Or.inl hp
  | cons ctx rest ih =>
    intro count f p hp
    rw [buildLoop_cons] at hp
    split at hp
    · exact ih count f p hp
    · split at hp
      · exact Or.inl hp
      · rcases addPhraseArcs_shape symtab cfg.context_score startSt finalSt (Trim ctx) f with
          ⟨n, newArcs, heq, hsrc⟩
        rw [heq] at hp
        rcases ih (count + 1) _ p hp with h | h | h
        · rcases List.mem_append.mp h with h | h
          · exact Or.inl h
          · exact Or.inr (hsrc p h)
        · exact Or.inr (Or.inl h)
        · exact Or.inr (Or.inr (le_trans (Nat.le_add_right _ _) h))

/-- Claim C9: when the builder truncates a phrase at an unknown token after
k ≥ 1 resolved tokens, the intermediate state reached by the kept k-token
prefix — the last state allocated for that phrase, id
`f.numStates + k - 1` — has no outgoing arcs at all in the automaton at the
end of the whole build, in particular not the escape arc (weight
`-context_score * k`) that position k of a fully compiled phrase would have
received: the escape arc for position k is only added in the loop iteration
that instead breaks on the failed lookup, and no later phrase ever adds an
arc leaving this state. -/
theorem claim_c9 (symtab : SymbolTable) (cfg : ContextConfig) (startSt finalSt : Nat)
    (pre : List UChar) (bad : UChar) (post : List UChar)
    (rest : List Phrase) (count : Nat) (f : StdVectorFst)
    (hs : startSt < f.numStates)
    (hf : ∀ p ∈ f.arcs, p.1 < f.numStates)
    (hpre : pre ≠ []) (hres : ∀ c ∈ pre, symtab c ≠ -1) (hbad : symtab bad = -1) :
    arcsOf
      (buildLoop symtab cfg startSt finalSt rest count
        (addPhraseArcs symtab cfg.context_score startSt finalSt
          (pre ++ bad :: post) 0 startSt f))
      (f.numStates + pre.length - 1) = [] := by
  have hchar := addPhraseArcs_trunc symtab cfg.context_score startSt finalSt
    pre bad post 0 startSt f hres hbad
  have hlen : 0 < pre.length := List.length_pos.mpr hpre
  have key : ∀ p ∈ (buildLoop symtab cfg startSt finalSt rest count
      (addPhraseArcs symtab cfg.context_score startSt finalSt
        (pre ++ bad :: post) 0 startSt f)).arcs,
      ¬p.1 = f.numStates + pre.length - 1 := by
    intro p hp
    rcases buildLoop_src symtab cfg startSt finalSt rest count _ p hp with h | h | h
    · rw [hchar] at h
      rcases List.mem_append.mp h with h | h
      · have := hf p h; omega
      · rcases truncChain_src cfg.context_score startSt _ 0 startSt f.numStates p h with
          h' | ⟨h1, h2⟩
        · omega
        · simp only [List.length_map] at h2
          omega
    · omega
    · rw [hchar] at h
      have h' : f.numStates + pre.length ≤ p.1 := h
      omega
  unfold arcsOf
  have hfilter : (buildLoop symtab cfg startSt finalSt rest count
      (addPhraseArcs symtab cfg.context_score startSt finalSt
        (pre ++ bad :: post) 0 startSt f)).arcs.filter
      (fun p => p.1 == f.numStates + pre.length - 1) = [] := by
    rw [List.filter_eq_nil_iff]
    intro p hp
    simpa using key p hp
  rw [hfilter, List.map_nil]

/-- Witness for C9: compiling the phrase `c·bad` (truncated after `c`, so the
dead state is 2) followed by the phrase `"a"`, the final automaton has no arc
leaving state 2. -/
theorem claim_c9_witness :
    (0 < initialFst.numStates ∧ (∀ p ∈ initialFst.arcs, p.1 < initialFst.numStates) ∧
      [cChar] ≠ [] ∧ (∀ c ∈ [cChar], symtabEx c ≠ -1) ∧ symtabEx badChar = -1) ∧
    arcsOf
      (buildLoop symtabEx cfgEx 0 1 [[aChar]] 0
        (addPhraseArcs symtabEx cfgEx.context_score 0 1 ([cChar] ++ badChar :: []) 0 0
          initialFst))
      (initialFst.numStates + [cChar].length - 1) = [] :=
  ⟨⟨by decide, by decide, by decide, by decide, by decide⟩,
   claim_c9 symtabEx cfgEx 0 1 [cChar] badChar [] [[aChar]] 0 initialFst
     (by decide) (by decide) (by decide) (by decide) (by decide)⟩

/-! ### Claims about the matcher -/

/-- Claim C5: whenever `active_states` is empty or the automaton is absent,
`GetNextContextStates` returns the score pair `(0, 0)` and an empty
`next_active_states` map, regardless of the contents of `active_states`. -/
theorem claim_c5 (g : Option StdVectorFst) (active : List (Nat × Rat)) (wordId : Int)
    (h : active = [] ∨ g = none) :
    GetNextContextStates g active wordId = ((0, 0), []) := by
  cases g with
  | none => rfl
  | some graph =>
    rcases h with rfl | h
    · rfl
    · exact absurd h (by simp)

/-- Witness for C5 with an absent automaton and a non-empty `active_states`. -/
theorem claim_c5_witness :
    ([((7 : Nat), (5 : Rat))] = [] ∨ (none : Option StdVectorFst) = none) ∧
    GetNextContextStates none [((7 : Nat), (5 : Rat))] 3 = ((0, 0), []) :=
  ⟨Or.inr rfl, claim_c5 none [(7, 5)] 3 (Or.inr rfl)⟩

/-- A fold preserves any property each step preserves. -/
theorem foldl_pres {α β : Type} (P : α → Prop) (step : α → β → α)
    (h : ∀ a b, P a → P (step a b)) :
    ∀ (l : List β) (a : α), P a → P (l.foldl step a)
  | [], _, ha => ha
  | b :: l, a, ha => foldl_pres P step h l (step a b) (h a b ha)

theorem processArc_no_match (g : StdVectorFst) (wordId : Int) (score : Rat)
    (st : MatchState) (arc : StdArc)
    (hm : ¬(arc.ilabel = wordId ∨ arc.ilabel = 0)) :
    processArc g wordId score st arc = st := by
  simp only [processArc, if_neg hm]

theorem processArc_final (g : StdVectorFst) (wordId : Int) (score : Rat)
    (st : MatchState) (arc : StdArc)
    (hm : arc.ilabel = wordId ∨ arc.ilabel = 0)
    (hfin : g.isFinal arc.nextstate = true) :
    processArc g wordId score st arc =
      { st with partMatchScore := max st.partMatchScore (score + arc.weight),
                fullMatchScore := max st.fullMatchScore (score + arc.weight) } := by
  simp only [processArc, if_pos hm, hfin, if_true]

theorem processArc_nonfinal (g : StdVectorFst) (wordId : Int) (score : Rat)
    (st : MatchState) (arc : StdArc)
    (hm : arc.ilabel = wordId ∨ arc.ilabel = 0)
    (hfin : g.isFinal arc.nextstate = false) :
    processArc g wordId score st arc =
      { st with partMatchScore := max st.partMatchScore (score + arc.weight),
                nextActive := mapInsertMax st.nextActive arc.nextstate (score + arc.weight) } := by
  simp only [processArc, if_pos hm, hfin, Bool.false_eq_true, if_false]

theorem processArc_scores_le (g : StdVectorFst) (wordId : Int) (score : Rat)
    (st : MatchState) (arc : StdArc) :
    st.partMatchScore ≤ (processArc g wordId score st arc).partMatchScore ∧
    st.fullMatchScore ≤ (processArc g wordId score st arc).fullMatchScore := by
  by_cases hm : arc.ilabel = wordId ∨ arc.ilabel = 0
  · cases hfin : g.isFinal arc.nextstate with
    | true =>
      rw [processArc_final g wordId score st arc hm hfin]
      exact ⟨le_max_left _ _, le_max_left _ _⟩
    | false =>
      rw [processArc_nonfinal g wordId score st arc hm hfin]
      exact ⟨le_max_left _ _, le_refl _⟩
  · rw [processArc_no_match g wordId score st arc hm]
    exact ⟨le_refl _, le_refl _⟩

/-- Any property preserved by every arc step is preserved by processing one
active state. -/
theorem processState_pres (g : StdVectorFst) (wordId : Int) (P : MatchState → Prop)
    (h : ∀ (st : MatchState) (arc : StdArc) (score : Rat),
      P st → P (processArc g wordId score st arc)) :
    ∀ (st : MatchState) (p : Nat × Rat), P st → P (processState g wordId st p) := by
  intro st p hst
  unfold processState
  exact foldl_pres P (processArc g wordId p.2) (fun a b ha => h a b p.2 ha) _ st hst

/-- Claim C10: both scores returned by `GetNextContextStates` are always
non-negative: each starts at 0 and is only ever raised by `max` with candidate
scores, so even when every matching arc yields a negative candidate the call
returns 0 rather than a negative bonus. -/
theorem claim_c10 (g : Option StdVectorFst) (active : List (Nat × Rat)) (wordId : Int) :
    0 ≤ (GetNextContextStates g active wordId).1.1 ∧
    0 ≤ (GetNextContextStates g active wordId).1.2 := by
  cases g with
  | none => exact ⟨le_refl 0, le_refl 0⟩
  | some graph =>
    by_cases hA : active.isEmpty
    · simp [GetNextContextStates, hA]
    · have key := foldl_pres
        (fun st : MatchState => 0 ≤ st.partMatchScore ∧ 0 ≤ st.fullMatchScore)
        (processState graph wordId)
        (processState_pres graph wordId _
          (fun st' arc score h' =>
            ⟨le_trans h'.1 (processArc_scores_le graph wordId score st' arc).1,
             le_trans h'.2 (processArc_scores_le graph wordId score st' arc).2⟩))
        active ⟨0, 0, []⟩ ⟨le_refl 0, le_refl 0⟩
      simp only [GetNextContextStates, if_neg hA]
      exact key

theorem mapInsertMax_mem (m : List (Nat × Rat)) (k : Nat) (v : Rat) :
    ∀ p ∈ mapInsertMax m k v, p ∈ m ∨ p.1 = k := by
  intro p hp
  unfold mapInsertMax at hp
  cases hfind : mapFind m k with
  | none =>
    simp only [hfind] at hp
    rcases List.mem_append.mp hp with h | h
    · exact Or.inl h
    · right; simp at h; rw [h]
  | some old =>
    simp only [hfind] at hp
    split at hp
    · rcases List.mem_map.mp hp with ⟨q, hq, hpq⟩
      by_cases hqk : (q.1 == k) = true
      · rw [if_pos hqk] at hpq
        right; rw [← hpq]
      · rw [if_neg hqk] at hpq
        exact Or.inl (hpq ▸ hq)
    · exact Or.inl hp

/-- One arc step keeps the invariant that no state stored in
`next_active_states` is final. -/
theorem processArc_nextActive_final (g : StdVectorFst) (wordId : Int) (score : Rat)
    (st : MatchState) (arc : StdArc)
    (h : ∀ q ∈ st.nextActive, g.isFinal q.1 = false) :
    ∀ q ∈ (processArc g wordId score st arc).nextActive, g.isFinal q.1 = false := by
  intro q hq
  by_cases hm : arc.ilabel = wordId ∨ arc.ilabel = 0
  · cases hfin : g.isFinal arc.nextstate with
    | true =>
      rw [processArc_final g wordId score st arc hm hfin] at hq
      exact h q hq
    | false =>
      rw [processArc_nonfinal g wordId score st arc hm hfin] at hq
      rcases mapInsertMax_mem _ _ _ q hq with hmem | hk
      · exact h q hmem
      · rw [hk]; exact hfin
  · rw [processArc_no_match g wordId score st arc hm] at hq
    exact h q hq

/-- Claim C2: for every examined arc whose target is the final state, the
candidate score `score + arc.weight` updates `full_match_score` via `max` and
the final state is not inserted into `next_active_states` (the state record is
otherwise unchanged); consequently the `next_active_states` map produced by
any call never contains a final state. -/
theorem claim_c2 (graph : StdVectorFst) :
    (∀ (wordId : Int) (score : Rat) (st : MatchState) (arc : StdArc),
      (arc.ilabel = wordId ∨ arc.ilabel = 0) → graph.isFinal arc.nextstate = true →
      processArc graph wordId score st arc =
        { st with partMatchScore := max st.partMatchScore (score + arc.weight),
                  fullMatchScore := max st.fullMatchScore (score + arc.weight) }) ∧
    (∀ (wordId : Int) (active : List (Nat × Rat)) (p : Nat × Rat),
      p ∈ (GetNextContextStates (some graph) active wordId).2 →
      graph.isFinal p.1 = false) := by
  constructor
  · exact fun wordId score st arc hm hfin =>
      processArc_final graph wordId score st arc hm hfin
  · intro wordId active p hp
    by_cases hA : active.isEmpty
    · simp [GetNextContextStates, hA] at hp
    · simp only [GetNextContextStates, if_neg hA] at hp
      exact foldl_pres
        (fun st : MatchState => ∀ q ∈ st.nextActive, graph.isFinal q.1 = false)
        (processState graph wordId)
        (processState_pres graph wordId _
          (fun st' arc score h' => processArc_nextActive_final graph wordId score st' arc h'))
        active ⟨0, 0, []⟩ (by intro q hq; simp at hq) p hp

/-- Witness for C2 on the `"cat"` automaton: a matching arc into the final
state only raises the scores (first part, word id 20 at state 3 with score 2),
and a produced next-state entry — state 3 with score 6, reached from state 2
with score 5 on word id 1 — is not final (second part). -/
theorem claim_c2_witness :
    (((20 : Int) = 20 ∨ (20 : Int) = 0) ∧ catFst.isFinal 1 = true ∧
      processArc catFst 20 2 ⟨0, 0, []⟩ ⟨20, 20, 1, 1⟩ =
        { partMatchScore := max 0 (2 + 1), fullMatchScore := max 0 (2 + 1),
          nextActive := [] }) ∧
    (((3 : Nat), (6 : Rat)) ∈ (GetNextContextStates (some catFst) [(2, 5)] 1).2 ∧
      catFst.isFinal 3 = false) :=
  ⟨⟨Or.inl rfl, by decide,
     (claim_c2 catFst).1 20 2 ⟨0, 0, []⟩ ⟨20, 20, 1, 1⟩ (Or.inl rfl) (by decide)⟩,
   ⟨by norm_num [GetNextContextStates, processState, processArc, arcsOf, catFst,
      mapInsertMax, mapFind, StdVectorFst.isFinal],
    (claim_c2 catFst).2 1 [(2, 5)] (3, 6)
      (by norm_num [GetNextContextStates, processState, processArc, arcsOf, catFst,
        mapInsertMax, mapFind, StdVectorFst.isFinal])⟩⟩

theorem mapFind_cons (x : Nat × Rat) (l : List (Nat × Rat)) (k : Nat) :
    mapFind (x :: l) k = if x.1 == k then some x.2 else mapFind l k := by
  by_cases hx : (x.1 == k) = true
  · simp [mapFind, List.find?_cons_of_pos _ hx, hx]
  · simp [mapFind, List.find?_cons_of_neg _ hx, hx]

/-- Replacing the value stored under a present key: the first entry with that
key is rewritten to the new value, so a lookup now returns it. -/
theorem mapFind_replace (m : List (Nat × Rat)) (k : Nat) (v : Rat)
    (h : mapFind m k ≠ none) :
    mapFind (m.map (fun p => if p.1 == k then (k, v) else p)) k = some v := by
  induction m with
  | nil => simp [mapFind] at h
  | cons q m' ih =>
    by_cases hq : (q.1 == k) = true
    · simp only [List.map_cons, mapFind_cons]
      simp [hq]
    · have hq' : (q.1 == k) = false := by simpa using hq
      have h' : mapFind m' k ≠ none := by
        simpa [mapFind_cons, hq'] using h
      simp only [List.map_cons, mapFind_cons]
      simpa [hq'] using ih h'

/-- Claim C3: when a candidate score is computed for a matching arc into a
non-final target state already present in `next_active_states`, a strictly
greater candidate replaces the stored value, while an exactly equal candidate
does not overwrite it — the map is returned untouched, keeping the
first-written value for that state. -/
theorem claim_c3 (graph : StdVectorFst) (wordId : Int) (score : Rat)
    (st : MatchState) (arc : StdArc) (old : Rat)
    (hm : arc.ilabel = wordId ∨ arc.ilabel = 0)
    (hfin : graph.isFinal arc.nextstate = false)
    (hold : mapFind st.nextActive arc.nextstate = some old) :
    (old < score + arc.weight →
      mapFind (processArc graph wordId score st arc).nextActive arc.nextstate =
        some (score + arc.weight)) ∧
    (score + arc.weight = old →
      (processArc graph wordId score st arc).nextActive = st.nextActive) := by
  have hpa : (processArc graph wordId score st arc).nextActive =
      mapInsertMax st.nextActive arc.nextstate (score + arc.weight) := by
    rw [processArc_nonfinal graph wordId score st arc hm hfin]
  constructor
  · intro hlt
    rw [hpa]
    unfold mapInsertMax
    simp only [hold, if_pos hlt]
    exact mapFind_replace st.nextActive arc.nextstate (score + arc.weight)
      (by rw [hold]; exact Option.some_ne_none old)
  · intro heq
    rw [hpa]
    unfold mapInsertMax
    have hnlt : ¬old < score + arc.weight := by rw [heq]; exact lt_irrefl old
    simp only [hold, if_neg hnlt]

/-- Witness for C3 at state 3 of the `"cat"` automaton, already stored with
score 2: the candidate 2 + 1 = 3 (strictly greater) replaces it, while the
candidate 1 + 1 = 2 (exactly equal) leaves the map untouched. -/
theorem claim_c3_witness :
    (((1 : Int) = 1 ∨ (1 : Int) = 0) ∧ catFst.isFinal 3 = false ∧
      mapFind [(3, 2)] 3 = some 2 ∧ (2 : Rat) < 2 + 1 ∧
      mapFind (processArc catFst 1 2 ⟨0, 0, [(3, 2)]⟩ ⟨1, 1, 1, 3⟩).nextActive 3 =
        some (2 + 1)) ∧
    ((1 : Rat) + 1 = 2 ∧
      (processArc catFst 1 1 ⟨0, 0, [(3, 2)]⟩ ⟨1, 1, 1, 3⟩).nextActive = [(3, 2)]) :=
  ⟨⟨Or.inl rfl, by decide, by decide, by norm_num,
     (claim_c3 catFst 1 2 ⟨0, 0, [(3, 2)]⟩ ⟨1, 1, 1, 3⟩ 2 (Or.inl rfl) (by decide)
       (by decide)).1 (by norm_num)⟩,
   ⟨by norm_num,
    (claim_c3 catFst 1 1 ⟨0, 0, [(3, 2)]⟩ ⟨1, 1, 1, 3⟩ 2 (Or.inl rfl) (by decide)
      (by decide)).2 (by norm_num)⟩⟩

end Wenet
